import Mathlib

/-!
Verification development for the `switch-font` VS Code extension
(`src/extension.ts` and its refactored variant).

The program has two parts:

* a font enumerator: it shells out to an OS-specific command
  (`reg query` on Windows, `fc-list` on macOS/Linux) and parses the raw
  text output into a deduplicated list of font family names;
* a two-stage interactive selection flow (font picker, then weight
  picker) that live-previews the highlighted candidate by writing the
  editor configuration and rolls the font family back on cancellation.

The definitions below are a shallow embedding of that TypeScript code.
Strings are manipulated at the `List Char` level, mirroring JavaScript
string primitives (`split`, `trim`, `startsWith`, `includes`,
`indexOf`). The VS Code `QuickPick` widget and the configuration store
are external capabilities; they are modelled by a small record following
their documented API semantics (show/hide/dispose, highlight-change,
accept and hide events).
-/

/-- Characters treated as whitespace by the JavaScript string primitives
used in the source (`trim`, the regex class `\s`). The ASCII subset
suffices for every input considered here; the Unicode space characters
JavaScript additionally accepts are omitted. -/
def jsWhitespace (c : Char) : Bool :=
  c == ' ' || c == '\t' || c == '\n' || c == '\r' || c == '\x0b' || c == '\x0c'

/-- Splitting a character list at every occurrence of a separator, the
semantics of JavaScript `String.prototype.split` with a one-character
separator: `"a\nb".split("\n") = ["a","b"]`, `"a\n".split("\n") = ["a",""]`,
`"".split("\n") = [""]`. -/
def splitOnChar (sep : Char) : List Char → List (List Char)
  | [] => [[]]
  | c :: rest =>
      match splitOnChar sep rest with
      | [] => [[]]
      | line :: lines =>
          if c = sep then [] :: line :: lines else (c :: line) :: lines

/-- JavaScript `String.prototype.trim`: drop leading and trailing
whitespace. -/
def trimChars (l : List Char) : List Char :=
  ((l.dropWhile jsWhitespace).reverse.dropWhile jsWhitespace).reverse

/-- String-level wrapper for `trimChars`. -/
def jsTrim (s : String) : String :=
  String.mk (trimChars s.data)

/-- String-level wrapper for `splitOnChar`, the model of
`s.split(sep)` for a one-character separator. -/
def jsSplit (sep : Char) (s : String) : List String :=
  (splitOnChar sep s.data).map String.mk

/-- JavaScript truthiness of a `string | undefined` value: `undefined`
and the empty string are falsy, every other string is truthy. The source
guards `originalFont ? … : …` and `if (… && originalFont)` with exactly
this test. -/
def jsTruthy : Option String → Bool
  | none => false
  | some s => !s.isEmpty

/-- Index of the first occurrence of `v`, the value JavaScript
`Array.prototype.indexOf` returns for an element that occurs in the
array. (JavaScript yields `-1` for an absent element; this encoding
yields `l.length`. The source only ever compares the index of an element
drawn from the array itself, where the two agree.) -/
def firstIdx {α : Type} [DecidableEq α] (v : α) : List α → Nat
  | [] => 0
  | x :: xs => if x = v then 0 else firstIdx v xs + 1

/-- The auxiliary loop of the source's duplicate-removal idiom
`a.filter((v, i, a) => a.indexOf(v) === i)`: walk the array with the
current position `i`, keeping an element exactly when the first index of
its value in the whole array `a` equals `i`. -/
def keepFirstAux {α : Type} [DecidableEq α] (a : List α) : List α → Nat → List α
  | [], _ => []
  | v :: rest, i =>
      if firstIdx v a = i then v :: keepFirstAux a rest (i + 1)
      else keepFirstAux a rest (i + 1)

/-- The source's duplicate-removal idiom
`a.filter((v, i, a) => a.indexOf(v) === i)`: keep the first occurrence
of every value, preserving order. -/
def keepFirstOccurrences {α : Type} [DecidableEq α] (a : List α) : List α :=
  keepFirstAux a a 0

/-- First-seen-wins deduplication relative to a set of already-seen
values. This is the insertion behaviour of a JavaScript `Set` that
already contains `seen`. -/
def dedupSeen {α : Type} [DecidableEq α] (seen : List α) : List α → List α
  | [] => []
  | x :: xs => if x ∈ seen then dedupSeen seen xs else x :: dedupSeen (x :: seen) xs

/-- First-seen-wins deduplication: the contents, in insertion order, of
a JavaScript `Set` populated from the list. -/
def dedupFirst {α : Type} [DecidableEq α] (l : List α) : List α :=
  dedupSeen [] l

/-- Insertion into an insertion-ordered set, the model of
`Set.prototype.add` (a `Set` whose elements are later read off with
`Array.from`, which preserves insertion order). -/
def addSet {α : Type} [DecidableEq α] (s : List α) (x : α) : List α :=
  if x ∈ s then s else s ++ [x]

/-- The fallback chain the live-preview handler builds from the original
font-family preference: `originalFont ? originalFont.split(',').map(f => f.trim()) : []`. -/
def originalChain : Option String → List String
  | none => []
  | some o => if o.isEmpty then [] else (jsSplit ',' o).map jsTrim

/-- The live-preview value written to `editor.fontFamily` while `c` is
highlighted (`quickPick.onDidChangeActive` in `src/extension.ts`, the
same expression in the refactored variant):
`[c, ...chain].filter((v, i, a) => a.indexOf(v) === i).join(', ')`. -/
def updatedFontFamily (selectedFont : String) (originalFont : Option String) : String :=
  String.intercalate ", " (keepFirstOccurrences (selectedFont :: originalChain originalFont))

theorem dedupSeen_congr {α : Type} [DecidableEq α] {s t : List α}
    (h : ∀ x : α, x ∈ s ↔ x ∈ t) : ∀ l : List α, dedupSeen s l = dedupSeen t l := by
  intro l
  induction l generalizing s t with
  | nil => rfl
  | cons x xs ih =>
      by_cases hx : x ∈ s
      · rw [dedupSeen, if_pos hx, dedupSeen, if_pos ((h x).mp hx)]
        exact ih h
      · rw [dedupSeen, if_neg hx, dedupSeen, if_neg (fun hc => hx ((h x).mpr hc))]
        refine congrArg _ (ih ?_)
        intro y
        simp only [List.mem_cons]
        exact or_congr Iff.rfl (h y)

theorem not_mem_of_mem_dedupSeen {α : Type} [DecidableEq α] {s : List α} {y : α} :
    ∀ {l : List α}, y ∈ dedupSeen s l → y ∉ s := by
  intro l
  induction l generalizing s with
  | nil => intro h; cases h
  | cons x xs ih =>
      intro hmem
      by_cases hx : x ∈ s
      · rw [dedupSeen, if_pos hx] at hmem
        exact ih hmem
      · rw [dedupSeen, if_neg hx] at hmem
        rcases List.mem_cons.mp hmem with h | h
        · subst h; exact hx
        · intro hs
          exact ih h (List.mem_cons_of_mem _ hs)

theorem dedupSeen_filter_not_seen {α : Type} [DecidableEq α] {s : List α} {a : α}
    (ha : a ∈ s) (l : List α) :
    (dedupSeen s l).filter (fun x => x ≠ a) = dedupSeen s l := by
  refine List.filter_eq_self.mpr ?_
  intro y hy
  have := not_mem_of_mem_dedupSeen hy
  simp only [ne_eq, decide_eq_true_eq]
  intro h
  exact this (h ▸ ha)

theorem dedupSeen_cons_seen {α : Type} [DecidableEq α] (a : α) :
    ∀ (l : List α) (s : List α),
      dedupSeen (a :: s) l = (dedupSeen s l).filter (fun x => x ≠ a) := by
  intro l
  induction l with
  | nil => intro s; rfl
  | cons x xs ih =>
      intro s
      by_cases hxa : x = a
      · subst hxa
        rw [dedupSeen, if_pos (List.mem_cons_self x s)]
        by_cases hxs : x ∈ s
        · rw [dedupSeen, if_pos hxs, ih]
        · rw [dedupSeen, if_neg hxs, List.filter_cons_of_neg (by simp),
            dedupSeen_filter_not_seen (List.mem_cons_self x s)]
      · rw [dedupSeen]
        by_cases hxs : x ∈ s
        · rw [if_pos (List.mem_cons_of_mem a hxs), dedupSeen, if_pos hxs, ih]
        · have hxas : x ∉ a :: s := by
            intro h
            rcases List.mem_cons.mp h with h | h
            · exact hxa h
            · exact hxs h
          rw [if_neg hxas, dedupSeen, if_neg hxs,
            List.filter_cons_of_pos (by simp [hxa]), ← ih (x :: s)]
          refine congrArg _ ?_
          refine dedupSeen_congr (fun y => ?_) xs
          simp only [List.mem_cons]
          tauto

theorem firstIdx_append_of_not_mem {α : Type} [DecidableEq α] {v : α} :
    ∀ {pre : List α}, v ∉ pre → ∀ l : List α, firstIdx v (pre ++ v :: l) = pre.length := by
  intro pre
  induction pre with
  | nil =>
      intro _ l
      simp [firstIdx]
  | cons p ps ih =>
      intro h l
      have hpv : p ≠ v := fun hc => h (hc ▸ List.mem_cons_self p ps)
      have hps : v ∉ ps := fun hc => h (List.mem_cons_of_mem p hc)
      have hstep : firstIdx v ((p :: ps) ++ v :: l) = firstIdx v (ps ++ v :: l) + 1 := by
        rw [List.cons_append]
        simp only [firstIdx, if_neg hpv]
      rw [hstep, ih hps l, List.length_cons]

theorem firstIdx_append_lt_of_mem {α : Type} [DecidableEq α] {v : α} :
    ∀ {pre : List α}, v ∈ pre → ∀ l : List α, firstIdx v (pre ++ l) < pre.length := by
  intro pre
  induction pre with
  | nil => intro h; cases h
  | cons p ps ih =>
      intro h l
      by_cases hpv : p = v
      · simp [firstIdx, if_pos hpv]
      · rcases List.mem_cons.mp h with h | h
        · exact absurd h.symm hpv
        · simpa [firstIdx, if_neg hpv] using ih h l

theorem keepFirstAux_eq_dedupSeen {α : Type} [DecidableEq α] :
    ∀ (rest pre : List α), keepFirstAux (pre ++ rest) rest pre.length = dedupSeen pre rest := by
  intro rest
  induction rest with
  | nil => intro pre; rfl
  | cons v rest' ih =>
      intro pre
      have hshape : pre ++ v :: rest' = (pre ++ [v]) ++ rest' := by
        simp [List.append_assoc]
      have hlen : (pre ++ [v]).length = pre.length + 1 := by
        simp
      have hrec : keepFirstAux (pre ++ v :: rest') rest' (pre.length + 1)
          = dedupSeen (pre ++ [v]) rest' := by
        rw [hshape, ← hlen]
        exact ih (pre ++ [v])
      by_cases hv : v ∈ pre
      · have hne : firstIdx v (pre ++ v :: rest') ≠ pre.length :=
          Nat.ne_of_lt (firstIdx_append_lt_of_mem hv (v :: rest'))
        rw [keepFirstAux, if_neg hne, hrec, dedupSeen, if_pos hv]
        refine dedupSeen_congr (fun y => ?_) rest'
        simp only [List.mem_append, List.mem_singleton]
        constructor
        · rintro (h | h)
          · exact h
          · exact h ▸ hv
        · exact Or.inl
      · have heq : firstIdx v (pre ++ v :: rest') = pre.length :=
          firstIdx_append_of_not_mem hv rest'
        rw [keepFirstAux, if_pos heq, hrec, dedupSeen, if_neg hv]
        refine congrArg _ ?_
        refine dedupSeen_congr (fun y => ?_) rest'
        simp only [List.mem_append, List.mem_singleton, List.mem_cons]
        tauto

theorem keepFirstOccurrences_eq_dedupFirst {α : Type} [DecidableEq α] (l : List α) :
    keepFirstOccurrences l = dedupFirst l := by
  have := keepFirstAux_eq_dedupSeen l ([] : List α)
  simpa [keepFirstOccurrences, dedupFirst] using this

theorem dedupFirst_cons {α : Type} [DecidableEq α] (c : α) (l : List α) :
    dedupFirst (c :: l) = c :: (dedupFirst l).filter (fun x => x ≠ c) := by
  rw [dedupFirst, dedupSeen, if_neg (List.not_mem_nil c), dedupSeen_cons_seen]
  rfl

/-- C1: for every live-preview update with original preference `o`
(possibly absent) and highlighted candidate `c`, the written
font-family value is the comma-separated list with `c` first, followed
by the elements of `o`'s fallback chain in order with every occurrence
of `c` and all later duplicates removed (first occurrence wins); in
particular `o = "Fira Code, Consolas"`, `c = "Consolas"` yields
`"Consolas, Fira Code"`. -/
theorem C1_livePreviewFontFamily :
    (∀ (c : String) (o : Option String),
      updatedFontFamily c o =
        String.intercalate ", "
          (c :: (dedupFirst (originalChain o)).filter (fun v => v ≠ c))) ∧
    updatedFontFamily "Consolas" (some "Fira Code, Consolas") = "Consolas, Fira Code" := by
  constructor
  · intro c o
    rw [updatedFontFamily, keepFirstOccurrences_eq_dedupFirst, dedupFirst_cons]
  · decide

/-- Value of a two-character escape sequence `\c` inside a JavaScript
single-quoted string literal, for the characters occurring in the
source's literals: `\n` is a newline; a backslash before a character
that is not a recognized escape yields that character itself (so `\S`,
`\M`, `\W`, `\C`, `\F` are just `S`, `M`, `W`, `C`, `F`). -/
def jsEscape (c : Char) : List Char :=
  if c = 'n' then ['\n']
  else if c = 't' then ['\t']
  else if c = 'r' then ['\r']
  else if c = 'b' then ['\x08']
  else if c = 'f' then ['\x0c']
  else if c = 'v' then ['\x0b']
  else if c = '0' then ['\x00']
  else [c]

/-- Runtime value of a JavaScript string literal body: resolve every
backslash escape with `jsEscape`. (The `\x`/`\u` forms do not occur in
the source's literals and are not modelled.) -/
def jsDecode : List Char → List Char
  | [] => []
  | '\\' :: c :: rest => jsEscape c ++ jsDecode rest
  | c :: rest => c :: jsDecode rest

/-- The characters of the Windows command literal exactly as they stand
in the source file:
`'reg query "HKLM\SOFTWARE\Microsoft\Windows NT\CurrentVersion\Fonts" /s'`
(single backslashes before `S`, `M`, `W`, `C`, `F`). -/
def winCommandSource : String :=
  "reg query \"HKLM\\SOFTWARE\\Microsoft\\Windows NT\\CurrentVersion\\Fonts\" /s"

/-- The characters of the Unix command literal exactly as they stand in
the source file:
`'fc-list :spacing=mono --format="%{family[0]}\n" | sort | uniq'`
(a backslash before `n`). -/
def unixCommandSource : String :=
  "fc-list :spacing=mono --format=\"%\x7bfamily[0]\x7d\\n\" | sort | uniq"

/-- The shell command `getMonospacedFonts` builds for a platform: the
runtime value of the matching literal, or the initial empty string
`let command = ''` when no branch of the `if`/`else if` chain matches. -/
def getCommand (platform : String) : String :=
  if platform = "win32" then String.mk (jsDecode winCommandSource.data)
  else if platform = "darwin" ∨ platform = "linux" then
    String.mk (jsDecode unixCommandSource.data)
  else ""

/-- Outcome of running a shell command through the `child_process.exec`
boundary: `error = some e` models a failed run (spawn failure,
non-zero exit status, or output-buffer overflow), in which case the
source's callback receives `error` and rejects; `error = none` models a
zero exit, and `stdout` is the captured standard output. -/
structure ExecResult where
  error : Option String
  stdout : String

/-- JavaScript `String.prototype.includes`: substring test. -/
def jsIncludes (sub : List Char) : List Char → Bool
  | [] => sub.isEmpty
  | c :: rest => sub.isPrefixOf (c :: rest) || jsIncludes sub rest

/-- The regex character class `[^\\s]`: any character that is not
JavaScript whitespace. -/
def nonWhitespace (c : Char) : Bool :=
  !jsWhitespace c

/-- One line of `reg query` output matched against the source's pattern
`/^\s*([^\s]+)\s+REG_SZ\s+(.*\.ttf)$/`, returning the first capture
group (the value name). The regex has the `m` flag, so on an input whose
lines contain no embedded line separators the global scan examines each
line independently; within one line the match is forced: `\s*` takes the
leading whitespace, `[^\s]+` the first whitespace-free token, `\s+` the
following whitespace run, then the literal `REG_SZ`, at least one more
whitespace character, and a remainder that must end in `.ttf` at the
line end. -/
def winLineMatch (line : List Char) : Option (List Char) :=
  let afterLead := line.dropWhile jsWhitespace
  let name := afterLead.takeWhile nonWhitespace
  let afterName := afterLead.dropWhile nonWhitespace
  if name.isEmpty then none
  else if afterName.isEmpty then none
  else
    let afterSep := afterName.dropWhile jsWhitespace
    if "REG_SZ".data.isPrefixOf afterSep then
      let afterTag := afterSep.drop 6
      match afterTag.head? with
      | some c =>
          if jsWhitespace c then
            let path := afterTag.dropWhile jsWhitespace
            if ".ttf".data.isSuffixOf path then some name else none
          else none
      | none => none
    else none

/-- The `win32` branch of `parseMonospacedFonts`: scan the registry
output with the pattern above, keep the names whose lower-cased form
contains `"mono"`, and collect them into an insertion-ordered set. -/
def parseWinFonts (output : String) : List String :=
  let lines := splitOnChar '\n' output.data
  let fonts := lines.foldl
    (fun s line =>
      match winLineMatch line with
      | some name =>
          if jsIncludes "mono".data (name.map Char.toLower) then addSet s (String.mk name)
          else s
      | none => s) []
  fonts

/-- The predicate of the `darwin`/`linux` branch of
`parseMonospacedFonts`: `if (line && !line.startsWith('.'))`. -/
def unixLineKeep (line : List Char) : Bool :=
  !line.isEmpty && !(line.head? == some '.')

/-- The `darwin`/`linux` branch of `parseMonospacedFonts`: split the
output on newlines, keep nonempty lines not starting with `'.'`, and add
each line's trimmed form to an insertion-ordered set. -/
def parseUnixFonts (output : String) : List String :=
  let lines := splitOnChar '\n' output.data
  let fonts := lines.foldl
    (fun s line => if unixLineKeep line then addSet s (jsTrim (String.mk line)) else s) []
  fonts

/-- The source's `parseMonospacedFonts(output, platform)`: dispatch on
the platform; any other platform leaves the set empty. -/
def parseMonospacedFonts (output : String) (platform : String) : List String :=
  if platform = "win32" then parseWinFonts output
  else if platform = "darwin" ∨ platform = "linux" then parseUnixFonts output
  else []

/-- The source's `getMonospacedFonts`, with the `child_process.exec`
capability passed in as an oracle from commands to results: build the
platform command, run it, reject with the error when the run failed, and
otherwise resolve with the parsed font list. -/
def getMonospacedFonts (platform : String) (exec : String → ExecResult) :
    Except String (List String) :=
  let res := exec (getCommand platform)
  match res.error with
  | some e => Except.error e
  | none => Except.ok (parseMonospacedFonts res.stdout platform)

/-- Platforms that match a branch of the command-building
`if`/`else if` chain in `getMonospacedFonts`. -/
def recognizedPlatform (p : String) : Bool :=
  p == "win32" || p == "darwin" || p == "linux"

/-- C7: on Windows the executed command contains no backslash at all —
the literal's `\S`, `\M`, `\W`, `\C`, `\F` are unrecognized JavaScript
escapes and collapse to the bare letters, so the registry path is
queried without any path separators. -/
theorem C7_winCommandNoBackslash :
    getCommand "win32" =
      "reg query \"HKLMSOFTWAREMicrosoftWindows NTCurrentVersionFonts\" /s" ∧
    (getCommand "win32").data.all (fun c => c ≠ '\\') = true := by
  decide

/-- An execution environment in which every command, in particular the
empty command, exits with status zero and produces no output. This is
how a POSIX shell behaves on the empty command: `sh -c ''` succeeds. -/
def quietShell : String → ExecResult :=
  fun _ => { error := none, stdout := "" }

/-- C4 counterexample: on the unrecognized platform `"haiku"` (neither
the Windows family nor a Unix-like system) the enumerator executes the
empty command; in an environment where that run exits zero — as a real
shell does — enumeration resolves with the empty font list instead of
failing with an `EnumerationError`. -/
theorem C4_counterexample :
    recognizedPlatform "haiku" = false ∧
    getMonospacedFonts "haiku" quietShell = Except.ok [] := by
  exact ⟨rfl, rfl⟩

/-- C4 amended: whenever the executed process reports an error the
enumeration fails with exactly that error; on an unrecognized platform
the enumerator runs the empty command, and when that command succeeds
the enumeration resolves with the empty list rather than failing. -/
theorem C4_processFailure (platform : String) (exec : String → ExecResult) :
    (∀ e : String, (exec (getCommand platform)).error = some e →
      getMonospacedFonts platform exec = Except.error e) ∧
    (recognizedPlatform platform = false → (exec "").error = none →
      getMonospacedFonts platform exec = Except.ok []) := by
  constructor
  · intro e h
    simp only [getMonospacedFonts, h]
  · intro hplat herr
    have h1 : ¬ platform = "win32" := by
      intro h
      subst h
      simp [recognizedPlatform] at hplat
    have h2 : ¬ (platform = "darwin" ∨ platform = "linux") := by
      rintro (h | h) <;> (subst h; simp [recognizedPlatform] at hplat)
    have hcmd : getCommand platform = "" := by
      rw [getCommand, if_neg h1, if_neg h2]
    simp only [getMonospacedFonts, hcmd, herr,
      parseMonospacedFonts, if_neg h1, if_neg h2]

/-- Witness for `C4_processFailure` at concrete inputs: a failing `exec`
on Linux propagates its error, and on the unrecognized platform
`"haiku"` a succeeding empty command yields the empty list. -/
theorem C4_processFailure_witness :
    getMonospacedFonts "linux" (fun _ => { error := some "exit 1", stdout := "" }) =
      Except.error "exit 1" ∧
    getMonospacedFonts "haiku" quietShell = Except.ok [] := by
  exact ⟨(C4_processFailure "linux" _).1 "exit 1" rfl,
    (C4_processFailure "haiku" quietShell).2 rfl rfl⟩

/-- One step of the set-collecting loops in `parseMonospacedFonts`:
when the selector accepts the line, add the selected value to the set;
otherwise leave the set unchanged. -/
def selFold {α β : Type} [DecidableEq α] (sel : β → Option α) (s : List α) (b : β) : List α :=
  match sel b with
  | some x => addSet s x
  | none => s

theorem foldl_selFold {α β : Type} [DecidableEq α] (sel : β → Option α) :
    ∀ (l : List β) (acc : List α),
      l.foldl (selFold sel) acc = acc ++ dedupSeen acc (l.filterMap sel) := by
  intro l
  induction l with
  | nil => intro acc; simp [dedupSeen]
  | cons b bs ih =>
      intro acc
      cases hsel : sel b with
      | none =>
          have hstep : selFold sel acc b = acc := by rw [selFold, hsel]
          rw [List.foldl_cons, hstep, ih, List.filterMap_cons_none hsel]
      | some x =>
          have hstep : selFold sel acc b = addSet acc x := by rw [selFold, hsel]
          rw [List.foldl_cons, hstep, ih, List.filterMap_cons_some hsel]
          by_cases hx : x ∈ acc
          · rw [addSet, if_pos hx, dedupSeen, if_pos hx]
          · rw [addSet, if_neg hx, dedupSeen, if_neg hx, List.append_assoc,
              List.singleton_append]
            refine congrArg _ (congrArg _ ?_)
            refine dedupSeen_congr (fun y => ?_) _
            simp only [List.mem_append, List.mem_singleton, List.mem_cons]
            tauto

theorem foldl_selFold_nil {α β : Type} [DecidableEq α] (sel : β → Option α) (l : List β) :
    l.foldl (selFold sel) [] = dedupFirst (l.filterMap sel) := by
  rw [foldl_selFold, dedupFirst, List.nil_append]

theorem filterMap_guard_eq_map_filter {α β : Type} (p : β → Bool) (f : β → α) :
    ∀ l : List β,
      l.filterMap (fun b => if p b then some (f b) else none) = (l.filter p).map f := by
  intro l
  induction l with
  | nil => rfl
  | cons b bs ih =>
      by_cases hb : p b
      · rw [List.filterMap_cons_some (by rw [if_pos hb]), List.filter_cons_of_pos hb,
          List.map_cons, ih]
      · rw [List.filterMap_cons_none (by rw [if_neg hb]), List.filter_cons_of_neg hb, ih]

/-- C5: for every Unix-style enumeration output, the parsed font list
keeps exactly the nonempty lines that do not start with `'.'`, trimmed,
deduplicated with first-seen order preserved; the `darwin` branch
behaves identically to the `linux` one. -/
theorem C5_unixLineFiltering (output : String) :
    parseMonospacedFonts output "linux" =
      dedupFirst (((splitOnChar '\n' output.data).filter unixLineKeep).map
        (fun line => jsTrim (String.mk line))) ∧
    parseMonospacedFonts output "darwin" = parseMonospacedFonts output "linux" := by
  have hmain : parseUnixFonts output =
      dedupFirst (((splitOnChar '\n' output.data).filter unixLineKeep).map
        (fun line => jsTrim (String.mk line))) := by
    have hfe : (fun (s : List String) (line : List Char) =>
        if unixLineKeep line then addSet s (jsTrim (String.mk line)) else s)
        = selFold (fun line =>
            if unixLineKeep line then some (jsTrim (String.mk line)) else none) := by
      funext s line
      by_cases h : unixLineKeep line
      · simp only [selFold, if_pos h]
      · simp only [selFold, if_neg h]
    show (splitOnChar '\n' output.data).foldl
        (fun s line => if unixLineKeep line then addSet s (jsTrim (String.mk line)) else s) []
      = _
    rw [hfe, foldl_selFold_nil]
    exact congrArg dedupFirst
      (filterMap_guard_eq_map_filter unixLineKeep (fun line => jsTrim (String.mk line)) _)
  exact ⟨hmain, rfl⟩

/-- An entry of Windows registry enumeration output: a value name and
the data value (a font file path). -/
structure WinEntry where
  name : String
  path : String

/-- A well-formed entry of Windows registry enumeration output: a
nonempty, whitespace-free value name (registry output tokens matched by
`[^\s]+`) and a data value free of line separators and of leading
whitespace. -/
def wfWinEntry (e : WinEntry) : Prop :=
  e.name.data ≠ [] ∧ (∀ c ∈ e.name.data, jsWhitespace c = false) ∧
  e.path.data.takeWhile jsWhitespace = [] ∧ '\n' ∉ e.path.data ∧ '\r' ∉ e.path.data

/-- One line of well-formed registry output for an entry, in the shape
`reg query` prints: indentation, the value name, whitespace, the type
tag `REG_SZ`, whitespace, the data value. -/
def renderWinLine (e : WinEntry) : List Char :=
  "    ".data ++ (e.name.data ++ ("    ".data ++ ("REG_SZ".data ++ ("    ".data ++ e.path.data))))

/-- Lines joined by the newline separator. -/
def joinLines : List (List Char) → List Char
  | [] => []
  | [l] => l
  | l :: ls => l ++ '\n' :: joinLines ls

/-- Well-formed registry output: the rendered entry lines joined by
newlines. -/
def renderWinOutput (entries : List WinEntry) : String :=
  String.mk (joinLines (entries.map renderWinLine))

theorem dropWhile_eq_self_of_takeWhile_nil {α : Type} {q : α → Bool} {l : List α}
    (h : l.takeWhile q = []) : l.dropWhile q = l := by
  have hsplit := List.takeWhile_append_dropWhile q l
  rw [h, List.nil_append] at hsplit
  exact hsplit

theorem winLineMatch_shape (n p : List Char)
    (hne : n ≠ []) (hnws : ∀ c ∈ n, jsWhitespace c = false)
    (hlead : p.takeWhile jsWhitespace = []) :
    winLineMatch ("    ".data ++ (n ++ ("    ".data ++ ("REG_SZ".data ++ ("    ".data ++ p)))))
      = if ".ttf".data.isSuffixOf p then some n else none := by
  obtain ⟨c0, ntl, rfl⟩ : ∃ c0 ntl, n = c0 :: ntl := by
    cases n with
    | nil => exact absurd rfl hne
    | cons a b => exact ⟨a, b, rfl⟩
  have hc0 : jsWhitespace c0 = false := hnws c0 (List.mem_cons_self _ _)
  have hc0' : nonWhitespace c0 = true := by simp [nonWhitespace, hc0]
  have hc0neg : ¬ jsWhitespace c0 = true := by simp [hc0]
  have hntl : ∀ a ∈ ntl, nonWhitespace a = true := fun a ha => by
    simp [nonWhitespace, hnws a (List.mem_cons_of_mem _ ha)]
  have hwsSp : jsWhitespace ' ' = true := by decide
  have hSpNeg : ¬ nonWhitespace ' ' = true := by decide
  have hRneg : ¬ jsWhitespace 'R' = true := by decide
  have hdropTag : ∀ l : List Char, List.drop 6 ('R' :: 'E' :: 'G' :: '_' :: 'S' :: 'Z' :: l) = l :=
    fun l => rfl
  have hpreTag : ∀ l : List Char,
      List.isPrefixOf ['R', 'E', 'G', '_', 'S', 'Z'] ('R' :: 'E' :: 'G' :: '_' :: 'S' :: 'Z' :: l)
        = true := fun l => by simp
  simp only [winLineMatch, show "    ".data = [' ', ' ', ' ', ' '] from rfl,
    show "REG_SZ".data = ['R', 'E', 'G', '_', 'S', 'Z'] from rfl,
    List.cons_append, List.nil_append]
  simp only [List.dropWhile_cons_of_pos hwsSp, List.dropWhile_cons_of_neg hc0neg,
    List.takeWhile_cons_of_pos hc0', List.takeWhile_append_of_pos hntl,
    List.dropWhile_cons_of_pos hc0', List.dropWhile_append_of_pos hntl,
    List.takeWhile_cons_of_neg hSpNeg, List.dropWhile_cons_of_neg hSpNeg,
    List.append_nil, List.isEmpty_cons, Bool.false_eq_true, if_false]
  simp only [List.dropWhile_cons_of_pos hwsSp, List.dropWhile_cons_of_neg hRneg,
    hpreTag, if_true, hdropTag, List.head?_cons]
  simp only [hwsSp, if_true, List.dropWhile_cons_of_pos hwsSp,
    dropWhile_eq_self_of_takeWhile_nil hlead]

theorem splitOnChar_ne_nil (sep : Char) : ∀ l : List Char, splitOnChar sep l ≠ [] := by
  intro l
  cases l with
  | nil => simp [splitOnChar]
  | cons c rest =>
      rw [splitOnChar]
      cases h : splitOnChar sep rest with
      | nil => simp
      | cons line lines =>
          by_cases hc : c = sep <;> simp [hc]

theorem splitOnChar_of_not_mem {sep : Char} :
    ∀ {l : List Char}, sep ∉ l → splitOnChar sep l = [l] := by
  intro l
  induction l with
  | nil => intro _; rfl
  | cons c rest ih =>
      intro h
      have hc : ¬ c = sep := fun hc => h (hc ▸ List.mem_cons_self c rest)
      have hrest : sep ∉ rest := fun hr => h (List.mem_cons_of_mem c hr)
      rw [splitOnChar, ih hrest]
      simp [hc]

theorem splitOnChar_append_sep {sep : Char} :
    ∀ {l : List Char}, sep ∉ l → ∀ t : List Char,
      splitOnChar sep (l ++ sep :: t) = l :: splitOnChar sep t := by
  intro l
  induction l with
  | nil =>
      intro _ t
      rw [List.nil_append, splitOnChar]
      cases h : splitOnChar sep t with
      | nil => exact absurd h (splitOnChar_ne_nil sep t)
      | cons line lines => simp
  | cons c rest ih =>
      intro h t
      have hc : ¬ c = sep := fun hc => h (hc ▸ List.mem_cons_self c rest)
      have hrest : sep ∉ rest := fun hr => h (List.mem_cons_of_mem c hr)
      rw [List.cons_append, splitOnChar, ih hrest t]
      simp [hc]

theorem splitOnChar_joinLines {sep : Char} (hsep : sep = '\n') :
    ∀ ls : List (List Char), ls ≠ [] → (∀ l ∈ ls, sep ∉ l) →
      splitOnChar sep (joinLines ls) = ls := by
  intro ls
  induction ls with
  | nil => intro h; exact absurd rfl h
  | cons l ls ih =>
      intro _ hmem
      cases ls with
      | nil =>
          rw [joinLines]
          exact splitOnChar_of_not_mem (hmem l (List.mem_cons_self _ _))
      | cons l' ls' =>
          have hjoin : joinLines (l :: l' :: ls') = l ++ '\n' :: joinLines (l' :: ls') := rfl
          rw [hjoin, ← hsep, splitOnChar_append_sep (hmem l (List.mem_cons_self _ _))]
          rw [ih (by simp) (fun x hx => hmem x (List.mem_cons_of_mem _ hx))]

/-- The extraction predicate of the Windows parse, phrased on an entry:
the name contains `"mono"` in any letter case and the value path ends in
`.ttf`. -/
def winEntryKeep (e : WinEntry) : Bool :=
  jsIncludes "mono".data (e.name.data.map Char.toLower) &&
    ".ttf".data.isSuffixOf e.path.data

/-- The per-line selector of the Windows parse: the name captured by the
registry pattern, kept when its lower-cased form contains `"mono"`. -/
def winSel (line : List Char) : Option String :=
  match winLineMatch line with
  | some name =>
      if jsIncludes "mono".data (name.map Char.toLower) then some (String.mk name) else none
  | none => none

theorem parseWinFonts_eq_selFold (output : String) :
    parseWinFonts output = (splitOnChar '\n' output.data).foldl (selFold winSel) [] := by
  have hfe : (fun (s : List String) (line : List Char) =>
      match winLineMatch line with
      | some name =>
          if jsIncludes "mono".data (name.map Char.toLower) then addSet s (String.mk name)
          else s
      | none => s) = selFold winSel := by
    funext s line
    simp only [selFold, winSel]
    cases winLineMatch line with
    | none => rfl
    | some name =>
        by_cases hm : jsIncludes "mono".data (name.map Char.toLower) <;> simp [hm]
  show (splitOnChar '\n' output.data).foldl
      (fun s line =>
        match winLineMatch line with
        | some name =>
            if jsIncludes "mono".data (name.map Char.toLower) then addSet s (String.mk name)
            else s
        | none => s) []
    = (splitOnChar '\n' output.data).foldl (selFold winSel) []
  rw [hfe]

theorem filterMap_congr_mem {α β : Type} {f g : α → Option β} :
    ∀ {l : List α}, (∀ x ∈ l, f x = g x) → l.filterMap f = l.filterMap g := by
  intro l
  induction l with
  | nil => intro _; rfl
  | cons a as ih =>
      intro h
      rw [List.filterMap_cons, List.filterMap_cons, h a (List.mem_cons_self _ _),
        ih (fun x hx => h x (List.mem_cons_of_mem _ hx))]

theorem winSel_render (e : WinEntry) (h : wfWinEntry e) :
    winSel (renderWinLine e) = if winEntryKeep e then some e.name else none := by
  obtain ⟨hne, hnws, hlead, -, -⟩ := h
  have hline : winLineMatch (renderWinLine e) =
      if ".ttf".data.isSuffixOf e.path.data then some e.name.data else none :=
    winLineMatch_shape e.name.data e.path.data hne hnws hlead
  by_cases httf : ".ttf".data.isSuffixOf e.path.data = true
  · by_cases hm : jsIncludes "mono".data (e.name.data.map Char.toLower) = true
    · simp [winSel, hline, httf, hm, winEntryKeep]
    · simp [winSel, hline, httf, hm, winEntryKeep]
  · simp [winSel, hline, httf, winEntryKeep]

theorem newline_not_mem_renderWinLine (e : WinEntry) (h : wfWinEntry e) :
    '\n' ∉ renderWinLine e := by
  obtain ⟨-, hnws, -, hnlp, -⟩ := h
  intro hmem
  simp only [renderWinLine, List.mem_append] at hmem
  rcases hmem with h1 | h1 | h1 | h1 | h1 | h1
  · exact absurd h1 (by decide)
  · exact absurd (hnws '\n' h1) (by decide)
  · exact absurd h1 (by decide)
  · exact absurd h1 (by decide)
  · exact absurd h1 (by decide)
  · exact hnlp h1

/-- C6: for every well-formed Windows registry output, exactly the
entries whose name contains `"mono"` (any letter case) and whose value
path ends in `.ttf` are extracted, duplicates collapsing to one entry
with first-seen order preserved. -/
theorem C6_winRegistryParse (entries : List WinEntry)
    (hwf : ∀ e ∈ entries, wfWinEntry e) :
    parseMonospacedFonts (renderWinOutput entries) "win32" =
      dedupFirst ((entries.filter winEntryKeep).map WinEntry.name) := by
  cases hent : entries with
  | nil => rfl
  | cons e0 es =>
      subst hent
      have hnl : ∀ l ∈ (e0 :: es).map renderWinLine, '\n' ∉ l := by
        intro l hl
        obtain ⟨e, he, rfl⟩ := List.mem_map.mp hl
        exact newline_not_mem_renderWinLine e (hwf e he)
      have hsplit : splitOnChar '\n' (renderWinOutput (e0 :: es)).data
          = (e0 :: es).map renderWinLine :=
        splitOnChar_joinLines rfl _ (by simp) hnl
      have hpoint : ∀ e ∈ e0 :: es,
          (winSel ∘ renderWinLine) e
            = (fun x => if winEntryKeep x then some (WinEntry.name x) else none) e := by
        intro e he
        exact winSel_render e (hwf e he)
      calc parseMonospacedFonts (renderWinOutput (e0 :: es)) "win32"
          = (splitOnChar '\n' (renderWinOutput (e0 :: es)).data).foldl (selFold winSel) [] :=
            parseWinFonts_eq_selFold _
        _ = dedupFirst (((e0 :: es).map renderWinLine).filterMap winSel) := by
            rw [hsplit, foldl_selFold_nil]
        _ = dedupFirst ((e0 :: es).filterMap
              (fun x => if winEntryKeep x then some (WinEntry.name x) else none)) := by
            rw [List.filterMap_map]
            exact congrArg dedupFirst (filterMap_congr_mem hpoint)
        _ = dedupFirst (((e0 :: es).filter winEntryKeep).map WinEntry.name) := by
            rw [filterMap_guard_eq_map_filter winEntryKeep WinEntry.name]

/-- Concrete registry entries: two identical monospace entries, a
non-mono font, a mono font not stored as `.ttf`, and a second distinct
mono `.ttf` entry. -/
def sampleWinEntries : List WinEntry :=
  [{ name := "CascadiaMono", path := "CascadiaMono.ttf" },
   { name := "Arial", path := "arial.ttf" },
   { name := "CascadiaMono", path := "CascadiaMono.ttf" },
   { name := "UbuntuMono", path := "UbuntuMono.otf" },
   { name := "JetBrainsMonoNL-Regular", path := "JetBrainsMonoNL-Regular.ttf" }]

instance (e : WinEntry) : Decidable (wfWinEntry e) := by
  unfold wfWinEntry
  infer_instance

/-- Witness for `C6_winRegistryParse` at the concrete entry list. -/
theorem C6_winRegistryParse_witness :
    (∀ e ∈ sampleWinEntries, wfWinEntry e) ∧
    parseMonospacedFonts (renderWinOutput sampleWinEntries) "win32" =
      dedupFirst ((sampleWinEntries.filter winEntryKeep).map WinEntry.name) ∧
    dedupFirst ((sampleWinEntries.filter winEntryKeep).map WinEntry.name) =
      ["CascadiaMono", "JetBrainsMonoNL-Regular"] := by
  exact ⟨by decide, C6_winRegistryParse sampleWinEntries (by decide), by decide⟩

/-- The two editor configuration keys the flow writes, as stored in the
global configuration store (`editor.fontFamily`, `editor.fontWeight`);
`none` models an absent value (`config.get` returning `undefined`). -/
structure Config where
  fontFamily : Option String
  fontWeight : Option String
deriving DecidableEq

/-- The state of one VS Code `QuickPick`, modelled from the documented
API of this external capability: a list of item labels, the index of the
currently highlighted (active) item, the selected items, and
visible/disposed flags. Showing a disposed picker has no effect (a
disposed input UI is defunct); hiding a visible picker fires its
`onDidHide` handler; accepting copies the active item into
`selectedItems` and fires `onDidAccept`. -/
structure QuickPick where
  items : List String
  activeIndex : Option Nat
  selected : List String
  visible : Bool
  disposed : Bool
deriving DecidableEq

/-- The mutable state of one invocation of the selection flow
(`handleFontSelection`/`handleWeightSelection` in the refactored
source): the configuration store, the captured `originalFont`, the font
picker, the closure variable `lastActiveFontIndex`, and the weight
picker once it has been created. -/
structure FlowState where
  config : Config
  originalFont : Option String
  fontQP : QuickPick
  lastActiveFontIndex : Option Nat
  weightQP : Option QuickPick
deriving DecidableEq

/-- The fixed weight list of the source:
`['normal', 'bold', '100', …, '900']`. -/
def fontWeights : List String :=
  ["normal", "bold", "100", "200", "300", "400", "500", "600", "700", "800", "900"]

/-- The synthetic current-font marker entry prepended to the candidate
list: `originalFont?.split(',')[0].trim()`, wrapped in
`Current Font: …` when truthy. -/
def currentFontMarker : Option String → Option String
  | none => none
  | some o =>
      let firstFont := jsTrim ((jsSplit ',' o).headD "")
      if firstFont.isEmpty then none else some ("Current Font: " ++ firstFont)

/-- Removal of the first occurrence of a pattern, the semantics of
JavaScript `String.prototype.replace` with a string pattern and an empty
replacement (for a nonempty pattern). -/
def removeFirstOcc (pat : List Char) : List Char → List Char
  | [] => []
  | c :: rest =>
      if pat.isPrefixOf (c :: rest) then (c :: rest).drop pat.length
      else c :: removeFirstOcc pat rest

/-- The label decoding of the font handlers:
`label.replace('Current Font: ', '').trim()`. -/
def stripCurrentFont (label : String) : String :=
  jsTrim (String.mk (removeFirstOcc "Current Font: ".data label.data))

/-- `show()` on a quick pick: no effect on a disposed picker, otherwise
it becomes visible. -/
def qpShow (qp : QuickPick) : QuickPick :=
  if qp.disposed then qp else { qp with visible := true }

/-- Entry of the flow (`activate`'s command handler followed by
`handleFontSelection`): capture `originalFont` from the configuration,
optionally prepend the current-font marker to the candidate list, create
and show the font picker. The source declares `lastActiveFontIndex` and
immediately checks `if (lastActiveFontIndex !== undefined)` to restore
the previous highlight; at that point the variable is always
`undefined`, so the restoring branch never runs. -/
def initFlow (preCfg : Config) (fonts : List String) : FlowState :=
  let originalFont := preCfg.fontFamily
  let items :=
    match currentFontMarker originalFont with
    | some m => m :: fonts
    | none => fonts
  let lastActiveFontIndex : Option Nat := none
  let activeIdx : Option Nat :=
    if lastActiveFontIndex.isSome then lastActiveFontIndex else none
  { config := preCfg
    originalFont := originalFont
    fontQP :=
      { items := items, activeIndex := activeIdx, selected := [], visible := true,
        disposed := false }
    lastActiveFontIndex := lastActiveFontIndex
    weightQP := none }

/-- The font picker's `onDidHide` handler together with the hide itself:
if nothing was selected and the original preference is truthy, restore
`editor.fontFamily` to it; then dispose the picker. Runs only when the
picker is visible. -/
def fontHideCascade (st : FlowState) : FlowState :=
  if st.fontQP.visible then
    let cfg :=
      if st.fontQP.selected.isEmpty && jsTruthy st.originalFont then
        { st.config with fontFamily := st.originalFont }
      else st.config
    { st with
      config := cfg
      fontQP := { st.fontQP with visible := false, disposed := true } }
  else st

/-- A highlight change in the font picker (`onDidChangeActive`): record
the index of the first item carrying the active label
(`findIndex(item => item.label === items[0].label)`) and write the
live-preview font family. -/
def stepFontActive (st : FlowState) (i : Nat) : FlowState :=
  if st.fontQP.visible && !st.fontQP.disposed then
    match st.fontQP.items.get? i with
    | some label =>
        let selectedFont := stripCurrentFont label
        { st with
          fontQP := { st.fontQP with activeIndex := some i }
          lastActiveFontIndex := some (firstIdx label st.fontQP.items)
          config :=
            { st.config with
              fontFamily := some (updatedFontFamily selectedFont st.originalFont) } }
    | none => st
  else st

/-- Acceptance in the font picker (`onDidAccept`): the active item
becomes the selection; when its decoded label is truthy,
`handleWeightSelection` creates and shows the weight picker and hides
the font picker, which fires the font picker's `onDidHide` handler and
disposes it. -/
def stepFontAccept (st : FlowState) : FlowState :=
  if st.fontQP.visible && !st.fontQP.disposed then
    let sel :=
      match st.fontQP.activeIndex.bind (st.fontQP.items.get? ·) with
      | some l => [l]
      | none => []
    let st0 := { st with fontQP := { st.fontQP with selected := sel } }
    match sel.head? with
    | some label =>
        let selectedFont := stripCurrentFont label
        if !selectedFont.isEmpty then
          let wqp : QuickPick :=
            { items := fontWeights, activeIndex := none, selected := [], visible := true,
              disposed := false }
          fontHideCascade { st0 with weightQP := some wqp }
        else st0
    | none => st0
  else st

/-- Dismissal of the font picker without acceptance: the hide fires
`onDidHide` with an empty selection. -/
def stepFontDismiss (st : FlowState) : FlowState :=
  fontHideCascade st

/-- The weight picker's `onDidHide` handler together with the hide
itself: when nothing was selected, call `fontQuickPick.show()` (a no-op
on the disposed font picker); then dispose the weight picker. -/
def weightHideCascade (st : FlowState) : FlowState :=
  match st.weightQP with
  | some qp =>
      if qp.visible then
        let fqp := if qp.selected.isEmpty then qpShow st.fontQP else st.fontQP
        { st with
          fontQP := fqp
          weightQP := some { qp with visible := false, disposed := true } }
      else st
  | none => st

/-- A highlight change in the weight picker (`onDidChangeActive`):
`applyWeight(weightItems[0]?.label)` writes the highlighted weight to
`editor.fontWeight` when truthy. -/
def stepWeightActive (st : FlowState) (i : Nat) : FlowState :=
  match st.weightQP with
  | some qp =>
      if qp.visible && !qp.disposed then
        match qp.items.get? i with
        | some w =>
            let cfg :=
              if !w.isEmpty then { st.config with fontWeight := some w } else st.config
            { st with weightQP := some { qp with activeIndex := some i }, config := cfg }
        | none => st
      else st
  | none => st

/-- Acceptance in the weight picker (`onDidAccept`): the active item
becomes the selection, `applyWeight` writes it when truthy, and the
picker is disposed (firing its `onDidHide` handler first). -/
def stepWeightAccept (st : FlowState) : FlowState :=
  match st.weightQP with
  | some qp =>
      if qp.visible && !qp.disposed then
        let sel :=
          match qp.activeIndex.bind (qp.items.get? ·) with
          | some l => [l]
          | none => []
        let cfg :=
          match sel.head? with
          | some w => if !w.isEmpty then { st.config with fontWeight := some w } else st.config
          | none => st.config
        weightHideCascade { st with weightQP := some { qp with selected := sel }, config := cfg }
      else st
  | none => st

/-- Dismissal of the weight picker without acceptance: the hide fires
`onDidHide` with an empty selection. -/
def stepWeightDismiss (st : FlowState) : FlowState :=
  weightHideCascade st

/-- The discrete UI events driving the flow. -/
inductive FlowEvent where
  | fontActive (i : Nat)
  | fontAccept
  | fontDismiss
  | weightActive (i : Nat)
  | weightAccept
  | weightDismiss
deriving DecidableEq

/-- One event step of the flow. -/
def step (st : FlowState) : FlowEvent → FlowState
  | .fontActive i => stepFontActive st i
  | .fontAccept => stepFontAccept st
  | .fontDismiss => stepFontDismiss st
  | .weightActive i => stepWeightActive st i
  | .weightAccept => stepWeightAccept st
  | .weightDismiss => stepWeightDismiss st

/-- A run of the flow over a sequence of events. -/
def run (st : FlowState) (evs : List FlowEvent) : FlowState :=
  evs.foldl step st

/-- The flow state after entering the flow with configuration `preCfg`
and font list `fonts` and live-previewing the highlight indices `idxs`
in order. -/
def previewRun (preCfg : Config) (fonts : List String) (idxs : List Nat) : FlowState :=
  run (initFlow preCfg fonts) (idxs.map FlowEvent.fontActive)

theorem stepFontActive_inv (st : FlowState) (i : Nat) :
    (stepFontActive st i).originalFont = st.originalFont ∧
    (stepFontActive st i).fontQP.selected = st.fontQP.selected ∧
    (stepFontActive st i).fontQP.visible = st.fontQP.visible ∧
    (stepFontActive st i).fontQP.disposed = st.fontQP.disposed ∧
    (stepFontActive st i).config.fontWeight = st.config.fontWeight := by
  unfold stepFontActive
  split
  · split <;> simp
  · simp

theorem run_fontActive_inv (idxs : List Nat) :
    ∀ st : FlowState,
      (run st (idxs.map FlowEvent.fontActive)).originalFont = st.originalFont ∧
      (run st (idxs.map FlowEvent.fontActive)).fontQP.selected = st.fontQP.selected ∧
      (run st (idxs.map FlowEvent.fontActive)).fontQP.visible = st.fontQP.visible ∧
      (run st (idxs.map FlowEvent.fontActive)).fontQP.disposed = st.fontQP.disposed := by
  induction idxs with
  | nil => intro st; exact ⟨rfl, rfl, rfl, rfl⟩
  | cons i is ih =>
      intro st
      obtain ⟨a1, a2, a3, a4, -⟩ := stepFontActive_inv st i
      obtain ⟨b1, b2, b3, b4⟩ := ih (stepFontActive st i)
      have hrun : run st ((i :: is).map FlowEvent.fontActive)
          = run (stepFontActive st i) (is.map FlowEvent.fontActive) := rfl
      exact ⟨by rw [hrun, b1, a1], by rw [hrun, b2, a2], by rw [hrun, b3, a3],
        by rw [hrun, b4, a4]⟩

theorem fontHideCascade_not_visible (st : FlowState) (h : st.fontQP.visible = false) :
    fontHideCascade st = st := by
  unfold fontHideCascade
  rw [h]
  simp

theorem stepFontDismiss_spec (st : FlowState)
    (hvis : st.fontQP.visible = true) (hsel : st.fontQP.selected = []) :
    ((stepFontDismiss st).config.fontFamily =
      if jsTruthy st.originalFont then st.originalFont else st.config.fontFamily) ∧
    (stepFontDismiss st).fontQP.visible = false ∧
    stepFontDismiss (stepFontDismiss st) = stepFontDismiss st := by
  have hbody : stepFontDismiss st =
      { st with
        config :=
          if st.fontQP.selected.isEmpty && jsTruthy st.originalFont then
            { st.config with fontFamily := st.originalFont }
          else st.config
        fontQP := { st.fontQP with visible := false, disposed := true } } := by
    unfold stepFontDismiss fontHideCascade
    rw [hvis]
    simp
  refine ⟨?_, ?_, ?_⟩
  · rw [hbody, hsel]
    by_cases ht : jsTruthy st.originalFont
    · simp [ht]
    · simp [ht, Bool.eq_false_iff.mpr ht]
  · rw [hbody]
  · have hv2 : (stepFontDismiss st).fontQP.visible = false := by rw [hbody]
    show stepFontDismiss (stepFontDismiss st) = stepFontDismiss st
    unfold stepFontDismiss
    exact fontHideCascade_not_visible _ hv2

/-- C2 counterexample: with the original preference present but equal to
the empty string (`config.get` returns `""`, a value that exists but is
falsy), a live preview followed by dismissal without acceptance leaves
the configuration at the previewed value `"Fira Mono"`; the claimed
restoration to the pre-flow value does not happen, because the rollback
guard `!quickPick.selectedItems.length && originalFont` tests
truthiness, not presence. -/
theorem C2_counterexample :
    (initFlow { fontFamily := some "", fontWeight := none } ["Fira Mono"]).originalFont
      = some "" ∧
    (stepFontDismiss
      (previewRun { fontFamily := some "", fontWeight := none } ["Fira Mono"] [0])).config.fontFamily
      = some "Fira Mono" ∧
    (stepFontDismiss
      (previewRun { fontFamily := some "", fontWeight := none } ["Fira Mono"] [0])).config.fontFamily
      ≠ ({ fontFamily := some "", fontWeight := none } : Config).fontFamily := by
  decide

/-- C2 amended: after any sequence of live previews, dismissing the font
stage without acceptance restores `editor.fontFamily` to exactly its
pre-flow value whenever the original preference existed as a nonempty
string, and the rollback is idempotent; when no original preference
existed or it was the empty string, the configuration is left at the
last previewed value (no restoring write occurs). -/
theorem C2_rollbackOnDismiss (preCfg : Config) (fonts : List String) (idxs : List Nat) :
    (∀ o : String, preCfg.fontFamily = some o → o ≠ "" →
      (stepFontDismiss (previewRun preCfg fonts idxs)).config.fontFamily = some o ∧
      stepFontDismiss (stepFontDismiss (previewRun preCfg fonts idxs))
        = stepFontDismiss (previewRun preCfg fonts idxs)) ∧
    (jsTruthy preCfg.fontFamily = false →
      (stepFontDismiss (previewRun preCfg fonts idxs)).config
        = (previewRun preCfg fonts idxs).config) := by
  obtain ⟨ho0, hsel0, hvis0, -⟩ := run_fontActive_inv idxs (initFlow preCfg fonts)
  have hinit1 : (initFlow preCfg fonts).originalFont = preCfg.fontFamily := rfl
  have hinit2 : (initFlow preCfg fonts).fontQP.selected = [] := rfl
  have hinit3 : (initFlow preCfg fonts).fontQP.visible = true := rfl
  rw [hinit1] at ho0
  rw [hinit2] at hsel0
  rw [hinit3] at hvis0
  have ho : (previewRun preCfg fonts idxs).originalFont = preCfg.fontFamily := ho0
  have hsel : (previewRun preCfg fonts idxs).fontQP.selected = [] := hsel0
  have hvis : (previewRun preCfg fonts idxs).fontQP.visible = true := hvis0
  obtain ⟨hfam, -, hidem⟩ :=
    stepFontDismiss_spec (previewRun preCfg fonts idxs) hvis hsel
  constructor
  · intro o hofam hone
    constructor
    · rw [hfam, ho, hofam]
      have hemp : o.isEmpty = false := by
        rw [Bool.eq_false_iff]
        intro hcontra
        exact hone ((String.isEmpty_iff o).mp hcontra)
      have htru : jsTruthy (some o) = true := by simp [jsTruthy, hemp]
      rw [if_pos htru]
    · exact hidem
  · intro hfalse
    have hcascade : stepFontDismiss (previewRun preCfg fonts idxs) =
        { previewRun preCfg fonts idxs with
          fontQP :=
            { (previewRun preCfg fonts idxs).fontQP with visible := false, disposed := true } } := by
      unfold stepFontDismiss fontHideCascade
      rw [hvis, ho, hfalse]
      simp [ho]
    rw [hcascade]

/-- Witness for `C2_rollbackOnDismiss`: a nonempty original preference
is restored exactly and idempotently; an absent one leaves the previewed
configuration untouched. -/
theorem C2_rollbackOnDismiss_witness :
    (stepFontDismiss (previewRun { fontFamily := some "Fira Code, Menlo", fontWeight := none }
      ["IBM Plex Mono", "JetBrains Mono"] [1])).config.fontFamily
      = some "Fira Code, Menlo" ∧
    stepFontDismiss (stepFontDismiss (previewRun
        { fontFamily := some "Fira Code, Menlo", fontWeight := none }
        ["IBM Plex Mono", "JetBrains Mono"] [1]))
      = stepFontDismiss (previewRun { fontFamily := some "Fira Code, Menlo", fontWeight := none }
        ["IBM Plex Mono", "JetBrains Mono"] [1]) ∧
    (stepFontDismiss (previewRun { fontFamily := none, fontWeight := none }
      ["IBM Plex Mono"] [0])).config
      = (previewRun { fontFamily := none, fontWeight := none } ["IBM Plex Mono"] [0]).config := by
  refine ⟨?_, ?_, ?_⟩
  · exact ((C2_rollbackOnDismiss _ _ _).1 "Fira Code, Menlo" rfl (by decide)).1
  · exact ((C2_rollbackOnDismiss _ _ _).1 "Fira Code, Menlo" rfl (by decide)).2
  · exact (C2_rollbackOnDismiss _ _ _).2 rfl

/-- C3, evaluated at a failing input: highlight the second font, accept
it, live-preview a weight, then dismiss the weight picker. The font
picker has already been disposed by its own `onDidHide` handler (fired
when the weight stage opened), so the `fontQuickPick.show()` call in the
weight picker's `onDidHide` has no effect: the font stage is not
re-shown, even though `lastActiveFontIndex` remembered index 1; the
restore-from-`lastActiveFontIndex` branch itself runs only once at
construction, when the variable is still `undefined` (last conjunct:
the initial active index is `none`). The font-weight configuration is
left at the previewed `"normal"`, as the claim's second half states. -/
theorem C3_weightDismissNoReturn :
    (run (initFlow { fontFamily := none, fontWeight := none } ["A Mono", "B Mono"])
      [FlowEvent.fontActive 1, FlowEvent.fontAccept, FlowEvent.weightActive 0,
        FlowEvent.weightDismiss]).fontQP.disposed = true ∧
    (run (initFlow { fontFamily := none, fontWeight := none } ["A Mono", "B Mono"])
      [FlowEvent.fontActive 1, FlowEvent.fontAccept, FlowEvent.weightActive 0,
        FlowEvent.weightDismiss]).fontQP.visible = false ∧
    (run (initFlow { fontFamily := none, fontWeight := none } ["A Mono", "B Mono"])
      [FlowEvent.fontActive 1, FlowEvent.fontAccept, FlowEvent.weightActive 0,
        FlowEvent.weightDismiss]).lastActiveFontIndex = some 1 ∧
    (run (initFlow { fontFamily := none, fontWeight := none } ["A Mono", "B Mono"])
      [FlowEvent.fontActive 1, FlowEvent.fontAccept, FlowEvent.weightActive 0,
        FlowEvent.weightDismiss]).config.fontWeight = some "normal" ∧
    (initFlow { fontFamily := none, fontWeight := none } ["A Mono", "B Mono"]).fontQP.activeIndex
      = none := by
  decide

/-- C8: in the weight-picking stage, a highlight change immediately
writes the newly highlighted weight token to the live font-weight
configuration, independent of any acceptance: the font family is
untouched and the picker records only the new active index (no
selection is made). -/
theorem C8_weightLivePreview (st : FlowState) (qp : QuickPick) (i : Nat) (w : String)
    (hqp : st.weightQP = some qp) (hvis : qp.visible = true) (hdis : qp.disposed = false)
    (hitem : qp.items.get? i = some w) (hw : w ≠ "") :
    (stepWeightActive st i).config.fontWeight = some w ∧
    (stepWeightActive st i).config.fontFamily = st.config.fontFamily ∧
    (stepWeightActive st i).weightQP = some { qp with activeIndex := some i } := by
  have hwe : w.isEmpty = false := by
    rw [Bool.eq_false_iff]
    intro hc
    exact hw ((String.isEmpty_iff w).mp hc)
  have hitem2 : qp.items[i]? = some w := by
    rw [← List.get?_eq_getElem?]
    exact hitem
  refine ⟨?_, ?_, ?_⟩ <;> simp [stepWeightActive, hqp, hvis, hdis, hitem2, hwe]

/-- The flow state of the witness for `C8_weightLivePreview`: the weight
stage has just been entered by accepting the current-font marker. -/
def c8State : FlowState :=
  run (initFlow { fontFamily := some "Menlo", fontWeight := none } ["Fira Mono"])
    [FlowEvent.fontActive 0, FlowEvent.fontAccept]

/-- The weight picker as created at weight-stage entry. -/
def freshWeightQP : QuickPick :=
  { items := fontWeights, activeIndex := none, selected := [], visible := true,
    disposed := false }

/-- Witness for `C8_weightLivePreview`: highlighting `bold` writes it
immediately. -/
theorem C8_weightLivePreview_witness :
    c8State.weightQP = some freshWeightQP ∧
    (stepWeightActive c8State 1).config.fontWeight = some "bold" ∧
    (stepWeightActive c8State 1).config.fontFamily = c8State.config.fontFamily := by
  refine ⟨by decide, ?_, ?_⟩
  · exact (C8_weightLivePreview c8State freshWeightQP 1 "bold" (by decide) rfl rfl
      (by decide) (by decide)).1
  · exact (C8_weightLivePreview c8State freshWeightQP 1 "bold" (by decide) rfl rfl
      (by decide) (by decide)).2.1

theorem step_noop (st : FlowState) (e : FlowEvent)
    (hf : st.fontQP.visible = false)
    (hw : ∀ qp : QuickPick, st.weightQP = some qp → qp.visible = false) :
    step st e = st := by
  cases e with
  | fontActive i => simp [step, stepFontActive, hf]
  | fontAccept => simp [step, stepFontAccept, hf]
  | fontDismiss => simp [step, stepFontDismiss, fontHideCascade, hf]
  | weightActive i =>
      simp only [step, stepWeightActive]
      cases hq : st.weightQP with
      | none => rfl
      | some qp => simp [hw qp hq]
  | weightAccept =>
      simp only [step, stepWeightAccept]
      cases hq : st.weightQP with
      | none => rfl
      | some qp => simp [hw qp hq]
  | weightDismiss =>
      simp only [step, stepWeightDismiss, weightHideCascade]
      cases hq : st.weightQP with
      | none => rfl
      | some qp => simp [hw qp hq]

theorem run_noop (st : FlowState)
    (hf : st.fontQP.visible = false)
    (hw : ∀ qp : QuickPick, st.weightQP = some qp → qp.visible = false) :
    ∀ evs : List FlowEvent, run st evs = st := by
  intro evs
  induction evs with
  | nil => rfl
  | cons e es ih =>
      have hstep : run st (e :: es) = run (step st e) es := rfl
      rw [hstep, step_noop st e hf hw]
      exact ih

/-- C9: accepting a weight writes exactly the accepted token — one of
the fixed list `normal, bold, 100, …, 900` — to the font-weight
configuration and reaches a terminal state: every later event leaves the
state, in particular the configuration, unchanged within the
invocation. -/
theorem C9_weightAcceptCommit (st : FlowState) (qp : QuickPick) (i : Nat) (w : String)
    (hqp : st.weightQP = some qp) (hvis : qp.visible = true) (hdis : qp.disposed = false)
    (hitems : qp.items = fontWeights) (hact : qp.activeIndex = some i)
    (hitem : qp.items.get? i = some w)
    (hfqp : st.fontQP.visible = false) :
    (stepWeightAccept st).config.fontWeight = some w ∧
    w ∈ fontWeights ∧
    ∀ evs : List FlowEvent, run (stepWeightAccept st) evs = stepWeightAccept st := by
  have hwmem : w ∈ fontWeights := by
    rw [← hitems]
    exact List.get?_mem hitem
  have hwe : w.isEmpty = false := by
    have hall : fontWeights.all (fun x => !x.isEmpty) = true := by decide
    have := List.all_eq_true.mp hall w hwmem
    simpa using this
  have hitem2 : qp.items[i]? = some w := by
    rw [← List.get?_eq_getElem?]
    exact hitem
  have hstep : stepWeightAccept st =
      { st with
        config := { st.config with fontWeight := some w }
        weightQP := some { qp with selected := [w], visible := false, disposed := true } } := by
    simp [stepWeightAccept, weightHideCascade, hqp, hvis, hdis, hact, hitem2, hwe]
  refine ⟨by rw [hstep], hwmem, ?_⟩
  intro evs
  refine run_noop _ ?_ ?_ evs
  · rw [hstep]
    exact hfqp
  · intro qp2 hqp2
    rw [hstep] at hqp2
    simp only at hqp2
    injection hqp2 with h
    rw [← h]

/-- The flow state of the witness for `C9_weightAcceptCommit`: weight
stage entered, weight `200` (index 3) highlighted. -/
def c9State : FlowState :=
  run (initFlow { fontFamily := some "Menlo", fontWeight := none } ["Fira Mono"])
    [FlowEvent.fontActive 0, FlowEvent.fontAccept, FlowEvent.weightActive 3]

/-- The weight picker of `c9State`. -/
def c9WeightQP : QuickPick :=
  { items := fontWeights, activeIndex := some 3, selected := [], visible := true,
    disposed := false }

/-- Witness for `C9_weightAcceptCommit`: accepting the highlighted `200`
commits it, and subsequent events change nothing. -/
theorem C9_weightAcceptCommit_witness :
    c9State.weightQP = some c9WeightQP ∧
    (stepWeightAccept c9State).config.fontWeight = some "200" ∧
    "200" ∈ fontWeights ∧
    run (stepWeightAccept c9State) [FlowEvent.weightDismiss, FlowEvent.fontActive 0]
      = stepWeightAccept c9State := by
  have h := C9_weightAcceptCommit c9State c9WeightQP 3 "200" (by decide) rfl rfl rfl rfl
    (by decide) (by decide)
  exact ⟨by decide, h.1, h.2.1, h.2.2 _⟩

/-- The externally observable effects of one run of the registered
command (`activate`'s handler): the error notifications shown, whether
the configuration store was consulted (`getConfiguration`/`get`), and
the interactive flow state when one was started (pickers exist and
configuration can be written only through `flow`). -/
structure CommandEffects where
  notices : List String
  configRead : Bool
  flow : Option FlowState
deriving DecidableEq

/-- The source's command handler: await enumeration; on rejection show
`Error fetching fonts: …` and stop; on an empty list show
`No monospaced fonts found on the system.` and return before the
configuration is read or any picker is created; otherwise read the
configuration and start the font-selection flow. -/
def runCommand (enumResult : Except String (List String)) (preCfg : Config) :
    CommandEffects :=
  match enumResult with
  | Except.error e =>
      { notices := ["Error fetching fonts: " ++ e], configRead := false, flow := none }
  | Except.ok fonts =>
      if fonts.length = 0 then
        { notices := ["No monospaced fonts found on the system."], configRead := false,
          flow := none }
      else
        { notices := [], configRead := true, flow := some (initFlow preCfg fonts) }

/-- C10: when enumeration succeeds with an empty font list, a
user-visible error notification is produced, no picker flow is started,
and the configuration is neither read nor written. -/
theorem C10_emptyEnumeration (preCfg : Config) :
    (runCommand (Except.ok []) preCfg).notices
      = ["No monospaced fonts found on the system."] ∧
    (runCommand (Except.ok []) preCfg).flow = none ∧
    (runCommand (Except.ok []) preCfg).configRead = false := by
  exact ⟨rfl, rfl, rfl⟩
